import Mathlib

set_option maxRecDepth 4000

namespace Teleprompter

/-!
Shallow embedding of the voice-tracking alignment engine of
src/src/Teleprompter.tsx (the `processTranscript` callback and its helper
functions `normalizeWord`, `getPhoneticCodes`, `wordsMatchPhonetically`,
the inner `wordsMatch` and `findConsecutiveMatches` closures, and the
module-level tracking state `lastProcessedWordCount` / `lastTranscriptTime`).

The double-metaphone phonetic encoder comes from the external
`double-metaphone` npm package, not from this repository; it is abstracted
here as a parameter `dm : String → String × String` giving the
(primary, secondary) codes of a normalized word.
-/

/-- A character counted by the JS regex class `\w` = [A-Za-z0-9_]. -/
def isWordChar (c : Char) : Bool := c.isAlphanum || c == '_'

/-- Embeds `normalizeWord` (Teleprompter.tsx line 279):
lowercase, then strip all non-`\w` characters. -/
def normalizeWord (w : String) : String :=
  String.mk ((w.data.map Char.toLower).filter isWordChar)

/-- Collects maximal runs of non-whitespace characters (`acc` holds the
current run, reversed). -/
def tokenizeAux : List Char → List Char → List String
  | [], acc => if acc.isEmpty then [] else [String.mk acc.reverse]
  | c :: cs, acc =>
    if c.isWhitespace then
      if acc.isEmpty then tokenizeAux cs []
      else String.mk acc.reverse :: tokenizeAux cs []
    else tokenizeAux cs (c :: acc)

/-- Transcript tokenization `transcript.split(/\s+/).filter(Boolean)`
(Teleprompter.tsx line 707): the maximal whitespace-free runs, i.e. split
on whitespace with empty tokens dropped. -/
def tokenize (t : String) : List String := tokenizeAux t.data []

/-- Embeds `getPhoneticCodes` (Teleprompter.tsx lines 284-288): codes are
empty for normalized words shorter than 2 characters, otherwise the
double-metaphone codes of the normalized word. -/
def getPhoneticCodes (dm : String → String × String) (word : String) : String × String :=
  let normalized := normalizeWord word
  if normalized.length < 2 then ("", "") else dm normalized

/-- The four code-pair comparisons of `wordsMatchPhonetically`
(Teleprompter.tsx lines 297-301); JS truthiness of a string is
non-emptiness. -/
def codePairMatch (c1 c2 : String × String) : Bool :=
  (c1.1 != "" && c2.1 != "" && c1.1 == c2.1) ||
  (c1.1 != "" && c2.2 != "" && c1.1 == c2.2) ||
  (c1.2 != "" && c2.1 != "" && c1.2 == c2.1) ||
  (c1.2 != "" && c2.2 != "" && c1.2 == c2.2)

/-- Embeds `wordsMatchPhonetically` (Teleprompter.tsx lines 290-304). -/
def wordsMatchPhonetically (dm : String → String × String) (word1 word2 : String) : Bool :=
  if word1.length < 4 ∨ word2.length < 4 then false
  else codePairMatch (getPhoneticCodes dm word1) (getPhoneticCodes dm word2)

/-- Embeds the inner `wordsMatch` closure of `processTranscript`
(Teleprompter.tsx lines 747-755). -/
def wordsMatch (dm : String → String × String) (spoken script : String) : Bool :=
  if spoken == script then true
  else if 4 ≤ spoken.length ∧ 4 ≤ script.length then wordsMatchPhonetically dm spoken script
  else false

/-- Modelled from the spec: the `double-metaphone` library itself is not part
of this repository; the spec only requires a two-code phonetic fingerprint
per normalized word. This concrete stand-in maps a normalized word to
itself as primary code with an empty secondary code; it is used to
instantiate witnesses and counterexamples whose outcome does not depend on
the real metaphone codes. -/
def dmId : String → String × String := fun w => (w, "")

/-- Guarded script access: `m w script[j]`, false out of range. In the
source the reference array is only ever indexed inside its bounds for the
reachable states (the cursor never exceeds the script length). -/
def matchAt (m : String → String → Bool) (script : List String) (w : String) (j : Nat) : Bool :=
  if h : j < script.length then m w (script.get ⟨j, h⟩) else false

/-- A forward scan loop `for (pos = base; pos < base + n && pos < len; pos++)`
returning the first position whose script word matches, if any. Used for
both the single-word window scans and the bounded-gap probe inside
`findConsecutiveMatches`. -/
def scanGaps (m : String → String → Bool) (w : String) (script : List String) :
    Nat → Nat → Option Nat
  | _, 0 => none
  | base, n + 1 =>
    if h : base < script.length then
      if m w (script.get ⟨base, h⟩) then some base
      else scanGaps m w script (base + 1) n
    else none

/-- One single-word forward window scan: on a match at `p` the tentative
cursor becomes `p + 1`, otherwise it is unchanged (Teleprompter.tsx
lines 838-850, 862-872, 875-885). -/
def forwardScan (m : String → String → Bool) (w : String) (script : List String)
    (scriptPos window : Nat) : Nat :=
  match scanGaps m w script scriptPos window with
  | some p => p + 1
  | none => scriptPos

/-- The loop body of `findConsecutiveMatches` (Teleprompter.tsx
lines 758-793): walk the spoken words, skipping words of length ≤ 1,
probing a window of `maxGap + 1` script positions per spoken word;
a probe failure ends the run. Accumulates (match count, last match pos). -/
def consecAux (m : String → String → Bool) (script : List String) (maxGap : Nat) :
    List String → Nat → Nat → Nat → Nat × Nat
  | [], _, cnt, last => (cnt, last)
  | w :: rest, scriptIdx, cnt, last =>
    if scriptIdx < script.length then
      if w.length ≤ 1 then consecAux m script maxGap rest scriptIdx cnt last
      else
        match scanGaps m w script scriptIdx (maxGap + 1) with
        | some p => consecAux m script maxGap rest (p + 1) (cnt + 1) p
        | none => (cnt, last)
    else (cnt, last)

/-- Embeds `findConsecutiveMatches` (Teleprompter.tsx lines 758-793).
Both call sites in the source pass `spokenStart = 0` and `maxGap = 2`;
the declared default `maxGap = 3` is never used. -/
def findConsecutiveMatches (m : String → String → Bool) (wordsToProcess script : List String)
    (spokenStart scriptStart maxGap : Nat) : Nat × Nat :=
  consecAux m script maxGap (wordsToProcess.drop spokenStart) scriptStart 0 scriptStart

/-- The descending positions `current - 5, current - 6, ..., searchStart`
visited by the backward single-word scan (Teleprompter.tsx line 803);
empty when `current - 5` is below `searchStart` (in JS, negative). -/
def backwardPositions (searchStart current : Nat) : List Nat :=
  (List.range' searchStart (current - 4 - searchStart)).reverse

/-- Backward single-word scan for one spoken word (Teleprompter.tsx
lines 801-809): first matching position scanning down from `current - 5`. -/
def backwardScanWord (m : String → String → Bool) (w : String) (script : List String)
    (current searchStart : Nat) : Option Nat :=
  (backwardPositions searchStart current).find? (matchAt m script w)

/-- The backward single-word pass (Teleprompter.tsx lines 798-810): every
spoken word of length ≥ 4 re-scans backward from `current - 5`; a match
overwrites the tentative position with `pos + 1`. -/
def backwardSinglePass (m : String → String → Bool) (script : List String)
    (current searchStart : Nat) : List String → Nat → Nat
  | [], sp => sp
  | w :: rest, sp =>
    backwardSinglePass m script current searchStart rest
      (if 4 ≤ w.length then
        match backwardScanWord m w script current searchStart with
        | some pos => pos + 1
        | none => sp
      else sp)

/-- The backward consecutive-run candidate loop (Teleprompter.tsx
lines 815-825): requires ≥ 3 consecutive matches and strictly more than
the best so far. -/
def bestBackwardAux (m : String → String → Bool) (wtp script : List String) :
    List Nat → Nat → Option Nat → Nat × Option Nat
  | [], best, bpos => (best, bpos)
  | pos :: rest, best, bpos =>
    let r := findConsecutiveMatches m wtp script 0 pos 2
    if 3 ≤ r.1 ∧ best < r.1 then bestBackwardAux m wtp script rest r.1 (some (r.2 + 1))
    else bestBackwardAux m wtp script rest best bpos

/-- Commit of the backward consecutive-run jump (Teleprompter.tsx
lines 827-829): accepted only when found (`>= 0`) and strictly below the
current cursor. -/
def backwardConsecutive (m : String → String → Bool) (wtp script : List String)
    (current searchStart scriptPos : Nat) : Nat :=
  match (bestBackwardAux m wtp script
      (List.range' searchStart (current - 3 - searchStart)) 0 none).2 with
  | some p => if p < current then p else scriptPos
  | none => scriptPos

/-- The whole backward phase (Teleprompter.tsx lines 796-831): single-word
pass, then the consecutive-run pass only when ≥ 2 words are being
processed and the single-word pass left the position at `current`. -/
def backwardPhase (m : String → String → Bool) (wtp script : List String)
    (current searchStart : Nat) : Nat :=
  let spA := backwardSinglePass m script current searchStart wtp current
  if 2 ≤ wtp.length ∧ spA = current then
    backwardConsecutive m wtp script current searchStart spA
  else spA

/-- The pause-relaxed forward pass (Teleprompter.tsx lines 835-852): each
word of length ≥ minLen scans a small window ahead of the tentative
position. -/
def pausePass (m : String → String → Bool) (script : List String) (minLen window : Nat) :
    List String → Nat → Nat
  | [], sp => sp
  | w :: rest, sp =>
    pausePass m script minLen window rest
      (if minLen ≤ w.length then forwardScan m w script sp window else sp)

/-- The regular forward single-word pass (Teleprompter.tsx lines 854-887):
per word, a narrow-window scan for words ≥ minLen, then a wide-window scan
for words ≥ longLen. -/
def regularPass (m : String → String → Bool) (script : List String)
    (minLen smallWindow longLen lookAhead : Nat) : List String → Nat → Nat
  | [], sp => sp
  | w :: rest, sp =>
    regularPass m script minLen smallWindow longLen lookAhead rest
      (let sp1 := if minLen ≤ w.length then forwardScan m w script sp smallWindow else sp
       if longLen ≤ w.length then forwardScan m w script sp1 lookAhead else sp1)

/-- The forward consecutive-run candidate loop (Teleprompter.tsx
lines 895-909). -/
def bestForwardAux (m : String → String → Bool) (wtp script : List String) (minConsec : Nat) :
    List Nat → Nat → Nat → Nat × Nat
  | [], best, bpos => (best, bpos)
  | pos :: rest, best, bpos =>
    let r := findConsecutiveMatches m wtp script 0 pos 2
    if minConsec ≤ r.1 ∧ best < r.1 then bestForwardAux m wtp script minConsec rest r.1 (r.2 + 1)
    else bestForwardAux m wtp script minConsec rest best bpos

/-- The forward consecutive-run phase (Teleprompter.tsx lines 889-914):
best candidate over the look-ahead window, committed when its match count
reaches the confidence threshold. -/
def forwardConsecutive (m : String → String → Bool) (wtp script : List String)
    (minConsec lookAhead scriptPos : Nat) : Nat :=
  let res := bestForwardAux m wtp script minConsec
    (List.range' scriptPos (min lookAhead (script.length - scriptPos))) 0 scriptPos
  if minConsec ≤ res.1 then res.2 else scriptPos

/-- The fade mode of the display (`fadeModeRef`); the engine only tests
whether it equals `lines`. -/
inductive FadeMode where
  | noFade
  | words
  | lines
deriving DecidableEq

/-- Engine-relevant mutable state: `targetWordCount` (the cursor), and the
module-level `lastProcessedWordCount` and `lastTranscriptTime`
(Teleprompter.tsx lines 306-308, 352-353). -/
structure EngineState where
  targetWordCount : Nat
  lastProcessedWordCount : Nat
  lastTranscriptTime : Nat
deriving DecidableEq

/-- Configuration visible to the engine: the fade mode and the LOOKAHEAD
setting (`voiceLookaheadRef`, Teleprompter.tsx lines 361-363, 462, 498).
The `voiceLookahead` field is written by the settings UI but, as the
theorems below record, never read by `processTranscript`. -/
structure EngineConfig where
  fadeMode : FadeMode
  voiceLookahead : Nat
deriving DecidableEq

/-- Default lookahead words for voice matching (Teleprompter.tsx line 335). -/
def DEFAULT_VOICE_LOOKAHEAD_WORDS : Nat := 50

/-- Max new words marked as spoken per final recognition result
(Teleprompter.tsx line 337). -/
def VOICE_MAX_ADVANCE_PER_RESULT : Nat := 30

/-- The normalized word list of a transcript: tokenize, normalize, drop
words that normalize to the empty string (Teleprompter.tsx lines 713-715). -/
def normalizedTranscript (t : String) : List String :=
  ((tokenize t).map normalizeWord).filter (fun w => 0 < w.length)

/-- JS `array.slice(-n)`: the last `n` elements. -/
def lastN {α : Type} (n : Nat) (l : List α) : List α := l.drop (l.length - n)

/-- The matching phases of `processTranscript` run inside
`setTargetWordCount` (Teleprompter.tsx lines 739-914): backward phase
(skipped in lines mode), pause-relaxed forward pass, regular forward pass,
forward consecutive-run phase. Returns the uncapped candidate position. -/
def runPhases (m : String → String → Bool) (isLinesMode : Bool)
    (normalizedScript wordsToProcess : List String) (current : Nat) (isPaused : Bool) : Nat :=
  let lookAhead := if isLinesMode then 30 else 100
  let lookBehind := if isLinesMode then 30 else 100
  let searchStart := current - lookBehind
  let sp1 := if isLinesMode then current
    else backwardPhase m wordsToProcess normalizedScript current searchStart
  let sp2 := if isPaused then
      pausePass m normalizedScript (if isLinesMode then 4 else 2)
        (if isLinesMode then 5 else 10) wordsToProcess sp1
    else sp1
  let sp3 := regularPass m normalizedScript (if isLinesMode then 5 else 3)
    (if isLinesMode then 5 else 15) (if isLinesMode then 7 else 5) lookAhead wordsToProcess sp2
  if 2 ≤ wordsToProcess.length then
    forwardConsecutive m wordsToProcess normalizedScript
      (if isLinesMode then 3 else 2) lookAhead sp3
  else sp3

/-- Embeds `processTranscript` (Teleprompter.tsx lines 704-925),
parameterized by the word-equivalence judge `m`: empty script or
token-less transcript is a no-op; otherwise the consumed-word counter and
last-transcript time are updated, the words to process are the new words
or (fallback) the last five words, and the cursor moves to the phases'
candidate capped at `current + maxAdvance`. -/
def processCore (m : String → String → Bool) (isLinesMode : Bool) (scriptWords : List String)
    (st : EngineState) (transcript : String) (isFinal : Bool) (now : Nat) : EngineState :=
  if scriptWords.length = 0 ∨ (tokenize transcript).length = 0 then st
  else
    let normalizedSpoken := normalizedTranscript transcript
    let newWords := normalizedSpoken.drop (min st.lastProcessedWordCount normalizedSpoken.length)
    let wordsToProcess := if newWords.length ≠ 0 then newWords else lastN 5 normalizedSpoken
    if wordsToProcess.length = 0 then
      ⟨st.targetWordCount, normalizedSpoken.length, now⟩
    else
      let isPaused := decide (0 < st.lastTranscriptTime) &&
        decide (1000 < now - st.lastTranscriptTime)
      let sp := runPhases m isLinesMode (scriptWords.map normalizeWord) wordsToProcess
        st.targetWordCount isPaused
      ⟨min sp (st.targetWordCount +
          (if isFinal then VOICE_MAX_ADVANCE_PER_RESULT else 15)),
        normalizedSpoken.length, now⟩

/-- `processTranscript` proper: the judge is the `wordsMatch` closure built
over the phonetic encoder, and lines mode comes from the fade-mode ref. -/
def processTranscript (dm : String → String × String) (cfg : EngineConfig)
    (scriptWords : List String) (st : EngineState) (transcript : String)
    (isFinal : Bool) (now : Nat) : EngineState :=
  processCore (wordsMatch dm) (decide (cfg.fadeMode = FadeMode.lines))
    scriptWords st transcript isFinal now

/-- The state produced by `reset` / session start (Teleprompter.tsx
lines 644-658): cursor 0 and `resetTrackingState()`. -/
def resetState : EngineState := ⟨0, 0, 0⟩

/-- Embeds `handleWordClick` (Teleprompter.tsx lines 668-683): jump the
cursor to the clicked word and `resetTrackingState()`. -/
def handleWordClick (wordIndex : Nat) : EngineState := ⟨wordIndex, 0, 0⟩

/-- The engine-relevant operations of a session. -/
inductive TeleOp where
  | event (transcript : String) (isFinal : Bool) (now : Nat)
  | jump (wordIndex : Nat)
  | reset
deriving DecidableEq

/-- An operation is valid for a script of `n` words when a manual jump
targets an existing word index (clicks come from rendered words). -/
def TeleOp.valid (n : Nat) : TeleOp → Bool
  | .jump i => i < n
  | _ => true

/-- Applying one operation to the engine state. -/
def applyOp (dm : String → String × String) (cfg : EngineConfig) (scriptWords : List String)
    (st : EngineState) : TeleOp → EngineState
  | .event t f now => processTranscript dm cfg scriptWords st t f now
  | .jump i => handleWordClick i
  | .reset => resetState

/-- The Equivalence Judge restated in the words of the spec (section 4.2)
for claim C5: exact equality always matches; otherwise both lengths must
be ≥ 4 and some pairing of primary/secondary phonetic codes must be equal
with both codes of the pairing non-empty. -/
def judgeSpecC5 (dm : String → String × String) (spoken ref : String) : Prop :=
  spoken = ref ∨
    (4 ≤ spoken.length ∧ 4 ≤ ref.length ∧
      (let c1 := getPhoneticCodes dm spoken
       let c2 := getPhoneticCodes dm ref
       (c1.1 ≠ "" ∧ c2.1 ≠ "" ∧ c1.1 = c2.1) ∨
       (c1.1 ≠ "" ∧ c2.2 ≠ "" ∧ c1.1 = c2.2) ∨
       (c1.2 ≠ "" ∧ c2.1 ≠ "" ∧ c1.2 = c2.1) ∨
       (c1.2 ≠ "" ∧ c2.2 ≠ "" ∧ c1.2 = c2.2)))

/-- The reference text of the spec's concrete walk-through (section 8). -/
def script9 : List String :=
  ["the", "quick", "brown", "fox", "jumps", "over", "the", "lazy", "dog"]

/-- Exact string equality as a judge; `wordsMatch dm` collapses to this
whenever no phonetic pair among the involved words matches. -/
def beqJudge : String → String → Bool := fun a b => a == b

/-! ### Bound lemmas: positions returned by the scans stay inside the script -/

theorem scanGaps_some_lt (m : String → String → Bool) (w : String) (script : List String) :
    ∀ n base p, scanGaps m w script base n = some p → p < script.length := by
  intro n
  induction n with
  | zero => intro base p h; simp [scanGaps] at h
  | succ k ih =>
    intro base p h
    unfold scanGaps at h
    split at h
    · split at h
      · cases h; assumption
      · exact ih _ _ h
    · simp at h

theorem forwardScan_le (m : String → String → Bool) (w : String) (script : List String)
    {sp : Nat} (window : Nat) (h : sp ≤ script.length) :
    forwardScan m w script sp window ≤ script.length := by
  unfold forwardScan
  cases hg : scanGaps m w script sp window with
  | none => exact h
  | some p => exact scanGaps_some_lt m w script window sp p hg

theorem pausePass_le (m : String → String → Bool) (script : List String) (a b : Nat) :
    ∀ (ws : List String) {sp : Nat}, sp ≤ script.length →
      pausePass m script a b ws sp ≤ script.length := by
  intro ws
  induction ws with
  | nil => intro sp h; exact h
  | cons w rest ih =>
    intro sp h
    unfold pausePass
    apply ih
    split
    · exact forwardScan_le m w script b h
    · exact h

theorem regularPass_le (m : String → String → Bool) (script : List String)
    (a b c d : Nat) :
    ∀ (ws : List String) {sp : Nat}, sp ≤ script.length →
      regularPass m script a b c d ws sp ≤ script.length := by
  intro ws
  induction ws with
  | nil => intro sp h; exact h
  | cons w rest ih =>
    intro sp h
    unfold regularPass
    apply ih
    dsimp only
    have h1 : (if a ≤ w.length then forwardScan m w script sp b else sp) ≤ script.length := by
      split
      · exact forwardScan_le m w script b h
      · exact h
    split
    · exact forwardScan_le m w script d h1
    · exact h1

theorem consecAux_snd (m : String → String → Bool) (script : List String) (g : Nat) :
    ∀ (ws : List String) (i cnt last : Nat),
      (consecAux m script g ws i cnt last).2 = last ∨
      (consecAux m script g ws i cnt last).2 < script.length := by
  intro ws
  induction ws with
  | nil => intro i cnt last; exact Or.inl rfl
  | cons w rest ih =>
    intro i cnt last
    unfold consecAux
    split
    · split
      · exact ih i cnt last
      · split
        · rename_i p hg
          have hp : p < script.length := scanGaps_some_lt m w script (g + 1) i p hg
          rcases ih (p + 1) (cnt + 1) p with h | h
          · rw [h]; exact Or.inr hp
          · exact Or.inr h
        · exact Or.inl rfl
    · exact Or.inl rfl

theorem bestForwardAux_snd (m : String → String → Bool) (wtp script : List String)
    (mc : Nat) :
    ∀ (ps : List Nat) (best bpos : Nat), (∀ pos ∈ ps, pos < script.length) →
      ((bestForwardAux m wtp script mc ps best bpos).2 = bpos ∨
       (bestForwardAux m wtp script mc ps best bpos).2 ≤ script.length) := by
  intro ps
  induction ps with
  | nil => intro best bpos _; exact Or.inl rfl
  | cons pos rest ih =>
    intro best bpos hv
    unfold bestForwardAux
    dsimp only
    split
    · have hpos : pos < script.length := hv pos (List.mem_cons_self _ _)
      have hsnd := consecAux_snd m script 2 (wtp.drop 0) pos 0 pos
      have hle : (findConsecutiveMatches m wtp script 0 pos 2).2 + 1 ≤ script.length := by
        unfold findConsecutiveMatches
        rcases hsnd with h | h
        · rw [h]; exact hpos
        · exact h
      rcases ih _ _ (fun q hq => hv q (List.mem_cons_of_mem _ hq)) with h | h
      · exact Or.inr (h ▸ hle)
      · exact Or.inr h
    · exact ih _ _ (fun q hq => hv q (List.mem_cons_of_mem _ hq))

theorem forwardConsecutive_le (m : String → String → Bool) (wtp script : List String)
    (mc la : Nat) {sp : Nat} (h : sp ≤ script.length) :
    forwardConsecutive m wtp script mc la sp ≤ script.length := by
  unfold forwardConsecutive
  dsimp only
  have hv : ∀ pos ∈ List.range' sp (min la (script.length - sp)), pos < script.length := by
    intro pos hm
    rcases List.mem_range'_1.mp hm with ⟨h1, h2⟩
    have h3 : min la (script.length - sp) ≤ script.length - sp := Nat.min_le_right _ _
    omega
  split
  · rcases bestForwardAux_snd m wtp script mc _ 0 sp hv with hb | hb
    · rw [hb]; exact h
    · exact hb
  · exact h

theorem backwardScanWord_mem (m : String → String → Bool) (w : String)
    (script : List String) (current searchStart : Nat) {pos : Nat}
    (h : backwardScanWord m w script current searchStart = some pos) :
    pos + 5 ≤ current := by
  unfold backwardScanWord at h
  have hm := List.mem_of_find?_eq_some h
  unfold backwardPositions at hm
  rw [List.mem_reverse] at hm
  rcases List.mem_range'_1.mp hm with ⟨h1, h2⟩
  omega

theorem backwardSinglePass_bound (m : String → String → Bool) (script : List String)
    (current searchStart : Nat) :
    ∀ (ws : List String) {sp : Nat}, (sp = current ∨ sp + 4 ≤ current) →
      (backwardSinglePass m script current searchStart ws sp = current ∨
       backwardSinglePass m script current searchStart ws sp + 4 ≤ current) := by
  intro ws
  induction ws with
  | nil => intro sp h; exact h
  | cons w rest ih =>
    intro sp h
    unfold backwardSinglePass
    apply ih
    split
    · split
      · rename_i pos hb
        have := backwardScanWord_mem m w script current searchStart hb
        omega
      · exact h
    · exact h

theorem backwardConsecutive_cases (m : String → String → Bool) (wtp script : List String)
    (current searchStart sp : Nat) :
    backwardConsecutive m wtp script current searchStart sp = sp ∨
    backwardConsecutive m wtp script current searchStart sp < current := by
  unfold backwardConsecutive
  split
  · split
    · rename_i hp
      exact Or.inr hp
    · exact Or.inl rfl
  · exact Or.inl rfl

theorem backwardPhase_le (m : String → String → Bool) (wtp script : List String)
    (current searchStart : Nat) :
    backwardPhase m wtp script current searchStart ≤ current := by
  unfold backwardPhase
  dsimp only
  have hs := backwardSinglePass_bound m script current searchStart wtp (Or.inl rfl)
  split
  · rcases backwardConsecutive_cases m wtp script current searchStart
      (backwardSinglePass m script current searchStart wtp current) with h | h
    · rw [h]; omega
    · omega
  · omega

theorem runPhases_le (m : String → String → Bool) (lines : Bool)
    (normScript wtp : List String) {current : Nat} (isPaused : Bool)
    (h : current ≤ normScript.length) :
    runPhases m lines normScript wtp current isPaused ≤ normScript.length := by
  unfold runPhases
  dsimp only
  have h1 : (if lines then current
      else backwardPhase m wtp normScript current (current - if lines then 30 else 100)) ≤
      normScript.length := by
    split
    · exact h
    · exact le_trans (backwardPhase_le m wtp normScript current _) h
  have h2 : (if isPaused then
      pausePass m normScript (if lines then 4 else 2) (if lines then 5 else 10) wtp
        (if lines then current
          else backwardPhase m wtp normScript current (current - if lines then 30 else 100))
      else (if lines then current
        else backwardPhase m wtp normScript current (current - if lines then 30 else 100))) ≤
      normScript.length := by
    split
    · exact pausePass_le m normScript _ _ wtp h1
    · exact h1
  have h3 := regularPass_le m normScript (if lines then 5 else 3) (if lines then 5 else 15)
    (if lines then 7 else 5) (if lines then 30 else 100) wtp h2
  split
  · exact forwardConsecutive_le m wtp normScript _ _ h3
  · exact h3

theorem ite_target_le {c : Prop} [Decidable c] {a b : EngineState} {n : Nat}
    (ha : a.targetWordCount ≤ n) (hb : b.targetWordCount ≤ n) :
    (if c then a else b).targetWordCount ≤ n := by
  split
  · exact ha
  · exact hb

theorem processCore_cursor_le (m : String → String → Bool) (lines : Bool)
    (scriptWords : List String) (st : EngineState) (t : String) (f : Bool) (now : Nat)
    (h : st.targetWordCount ≤ scriptWords.length) :
    (processCore m lines scriptWords st t f now).targetWordCount ≤ scriptWords.length := by
  unfold processCore
  split
  · exact h
  · dsimp only
    apply ite_target_le
    · exact h
    · have hmap : st.targetWordCount ≤ (scriptWords.map normalizeWord).length := by
        rw [List.length_map]; exact h
      refine le_trans (Nat.min_le_left _ _) ?_
      rw [show scriptWords.length = (scriptWords.map normalizeWord).length from
        (List.length_map _ _).symm]
      exact runPhases_le m lines _ _ _ hmap

theorem processTranscript_cursor_le (dm : String → String × String) (cfg : EngineConfig)
    (scriptWords : List String) (st : EngineState) (t : String) (f : Bool) (now : Nat)
    (h : st.targetWordCount ≤ scriptWords.length) :
    (processTranscript dm cfg scriptWords st t f now).targetWordCount ≤ scriptWords.length :=
  processCore_cursor_le (wordsMatch dm) _ scriptWords st t f now h

/-! ### No-match lemmas: spoken words matching nothing leave the position alone -/

theorem scanGaps_none_of (m : String → String → Bool) (w : String) (script : List String)
    (h : ∀ s ∈ script, m w s = false) :
    ∀ n base, scanGaps m w script base n = none := by
  intro n
  induction n with
  | zero => intro base; rfl
  | succ k ih =>
    intro base
    unfold scanGaps
    split
    · rw [h _ (List.get_mem _ _ _), if_neg Bool.false_ne_true]
      exact ih _
    · rfl

theorem matchAt_true (m : String → String → Bool) (script : List String) (w : String)
    (j : Nat) (hj : j < script.length) (hm : m w (script.get ⟨j, hj⟩) = false) :
    matchAt m script w j = false := by
  unfold matchAt
  rw [dif_pos hj]
  exact hm

theorem scanGaps_none_of_window (m : String → String → Bool) (w : String)
    (script : List String) :
    ∀ n base, (∀ g, g < n → matchAt m script w (base + g) = false) →
      scanGaps m w script base n = none := by
  intro n
  induction n with
  | zero => intro base _; rfl
  | succ k ih =>
    intro base h
    unfold scanGaps
    split
    · rename_i hb
      have h0 : matchAt m script w base = false := by
        have := h 0 (Nat.succ_pos k)
        rwa [Nat.add_zero] at this
      unfold matchAt at h0
      rw [dif_pos hb] at h0
      rw [h0, if_neg Bool.false_ne_true]
      refine ih (base + 1) ?_
      intro g hg
      have := h (g + 1) (by omega)
      rwa [show base + (g + 1) = base + 1 + g by omega] at this
    · rfl

theorem forwardScan_id (m : String → String → Bool) (w : String) (script : List String)
    (sp window : Nat) (h : ∀ s ∈ script, m w s = false) :
    forwardScan m w script sp window = sp := by
  unfold forwardScan
  rw [scanGaps_none_of m w script h window sp]

theorem pausePass_id (m : String → String → Bool) (script : List String) (a b : Nat) :
    ∀ (ws : List String) (sp : Nat), (∀ w ∈ ws, ∀ s ∈ script, m w s = false) →
      pausePass m script a b ws sp = sp := by
  intro ws
  induction ws with
  | nil => intro sp _; rfl
  | cons w rest ih =>
    intro sp hw
    unfold pausePass
    have harg : (if a ≤ w.length then forwardScan m w script sp b else sp) = sp := by
      split
      · exact forwardScan_id m w script sp b (hw w (List.mem_cons_self _ _))
      · rfl
    rw [harg]
    exact ih sp (fun w' hw' => hw w' (List.mem_cons_of_mem _ hw'))

theorem regularPass_id (m : String → String → Bool) (script : List String)
    (a b c d : Nat) :
    ∀ (ws : List String) (sp : Nat), (∀ w ∈ ws, ∀ s ∈ script, m w s = false) →
      regularPass m script a b c d ws sp = sp := by
  intro ws
  induction ws with
  | nil => intro sp _; rfl
  | cons w rest ih =>
    intro sp hw
    unfold regularPass
    dsimp only
    have h1 : (if a ≤ w.length then forwardScan m w script sp b else sp) = sp := by
      split
      · exact forwardScan_id m w script sp b (hw w (List.mem_cons_self _ _))
      · rfl
    rw [h1]
    have h2 : (if c ≤ w.length then forwardScan m w script sp d else sp) = sp := by
      split
      · exact forwardScan_id m w script sp d (hw w (List.mem_cons_self _ _))
      · rfl
    rw [h2]
    exact ih sp (fun w' hw' => hw w' (List.mem_cons_of_mem _ hw'))

theorem backwardScanWord_none (m : String → String → Bool) (w : String)
    (script : List String) (current searchStart : Nat)
    (h : ∀ s ∈ script, m w s = false) :
    backwardScanWord m w script current searchStart = none := by
  unfold backwardScanWord
  apply List.find?_eq_none.mpr
  intro j _
  unfold matchAt
  split
  · rw [h _ (List.get_mem _ _ _)]
    exact Bool.false_ne_true
  · exact Bool.false_ne_true

theorem backwardSinglePass_id (m : String → String → Bool) (script : List String)
    (current searchStart : Nat) :
    ∀ (ws : List String) (sp : Nat), (∀ w ∈ ws, ∀ s ∈ script, m w s = false) →
      backwardSinglePass m script current searchStart ws sp = sp := by
  intro ws
  induction ws with
  | nil => intro sp _; rfl
  | cons w rest ih =>
    intro sp hw
    unfold backwardSinglePass
    rw [backwardScanWord_none m w script current searchStart (hw w (List.mem_cons_self _ _))]
    split
    · exact ih sp (fun w' hw' => hw w' (List.mem_cons_of_mem _ hw'))
    · exact ih sp (fun w' hw' => hw w' (List.mem_cons_of_mem _ hw'))

theorem consecAux_id (m : String → String → Bool) (script : List String) (g : Nat) :
    ∀ (ws : List String) (i cnt last : Nat), (∀ w ∈ ws, ∀ s ∈ script, m w s = false) →
      consecAux m script g ws i cnt last = (cnt, last) := by
  intro ws
  induction ws with
  | nil => intro i cnt last _; rfl
  | cons w rest ih =>
    intro i cnt last hw
    unfold consecAux
    split
    · split
      · exact ih i cnt last (fun w' hw' => hw w' (List.mem_cons_of_mem _ hw'))
      · rw [scanGaps_none_of m w script (hw w (List.mem_cons_self _ _)) (g + 1) i]
    · rfl

theorem bestForwardAux_keep (m : String → String → Bool) (wtp script : List String)
    (mc : Nat) (hw : ∀ w ∈ wtp, ∀ s ∈ script, m w s = false) :
    ∀ (ps : List Nat) (bpos : Nat), bestForwardAux m wtp script mc ps 0 bpos = (0, bpos) := by
  intro ps
  induction ps with
  | nil => intro bpos; rfl
  | cons pos rest ih =>
    intro bpos
    unfold bestForwardAux
    dsimp only
    have hr : (findConsecutiveMatches m wtp script 0 pos 2).1 = 0 := by
      unfold findConsecutiveMatches
      rw [consecAux_id m script 2 (wtp.drop 0) pos 0 pos
        (fun w hmem s hs => hw w (List.drop_subset _ _ hmem) s hs)]
    have hneg : ¬(mc ≤ (findConsecutiveMatches m wtp script 0 pos 2).1 ∧
        0 < (findConsecutiveMatches m wtp script 0 pos 2).1) := by
      rw [hr]; omega
    rw [if_neg hneg]
    exact ih bpos

theorem forwardConsecutive_id (m : String → String → Bool) (wtp script : List String)
    (mc la sp : Nat) (hmc : 1 ≤ mc) (hw : ∀ w ∈ wtp, ∀ s ∈ script, m w s = false) :
    forwardConsecutive m wtp script mc la sp = sp := by
  unfold forwardConsecutive
  dsimp only
  rw [bestForwardAux_keep m wtp script mc hw _ sp]
  have : ¬(mc ≤ ((0 : Nat), sp).1) := by simp; omega
  rw [if_neg this]

theorem bestBackwardAux_keep (m : String → String → Bool) (wtp script : List String)
    (hw : ∀ w ∈ wtp, ∀ s ∈ script, m w s = false) :
    ∀ (ps : List Nat) (best : Nat) (bpos : Option Nat),
      bestBackwardAux m wtp script ps best bpos = (best, bpos) := by
  intro ps
  induction ps with
  | nil => intro best bpos; rfl
  | cons pos rest ih =>
    intro best bpos
    unfold bestBackwardAux
    dsimp only
    have hr : (findConsecutiveMatches m wtp script 0 pos 2).1 = 0 := by
      unfold findConsecutiveMatches
      rw [consecAux_id m script 2 (wtp.drop 0) pos 0 pos
        (fun w hmem s hs => hw w (List.drop_subset _ _ hmem) s hs)]
    have hneg : ¬(3 ≤ (findConsecutiveMatches m wtp script 0 pos 2).1 ∧
        best < (findConsecutiveMatches m wtp script 0 pos 2).1) := by
      rw [hr]; omega
    rw [if_neg hneg]
    exact ih best bpos

theorem backwardConsecutive_id (m : String → String → Bool) (wtp script : List String)
    (current searchStart sp : Nat) (hw : ∀ w ∈ wtp, ∀ s ∈ script, m w s = false) :
    backwardConsecutive m wtp script current searchStart sp = sp := by
  unfold backwardConsecutive
  rw [bestBackwardAux_keep m wtp script hw _ 0 none]

theorem backwardPhase_id (m : String → String → Bool) (wtp script : List String)
    (current searchStart : Nat) (hw : ∀ w ∈ wtp, ∀ s ∈ script, m w s = false) :
    backwardPhase m wtp script current searchStart = current := by
  unfold backwardPhase
  dsimp only
  rw [backwardSinglePass_id m script current searchStart wtp current hw]
  split
  · exact backwardConsecutive_id m wtp script current searchStart current hw
  · rfl

theorem runPhases_id (m : String → String → Bool) (lines : Bool)
    (normScript wtp : List String) (current : Nat) (isPaused : Bool)
    (hw : ∀ w ∈ wtp, ∀ s ∈ normScript, m w s = false) :
    runPhases m lines normScript wtp current isPaused = current := by
  unfold runPhases
  dsimp only
  have h1 : (if lines = true then current
      else backwardPhase m wtp normScript current (current - if lines = true then 30 else 100)) =
      current := by
    split
    · rfl
    · exact backwardPhase_id m wtp normScript current _ hw
  rw [h1]
  have h2 : (if isPaused = true then
      pausePass m normScript (if lines = true then 4 else 2) (if lines = true then 5 else 10)
        wtp current
      else current) = current := by
    split
    · exact pausePass_id m normScript _ _ wtp current hw
    · rfl
  rw [h2]
  rw [regularPass_id m normScript _ _ _ _ wtp current hw]
  split
  · refine forwardConsecutive_id m wtp normScript _ _ current ?_ hw
    split <;> omega
  · rfl

theorem processCore_cursor_id (m : String → String → Bool) (lines : Bool)
    (scriptWords : List String) (st : EngineState) (t : String) (f : Bool) (now : Nat)
    (hnw : (normalizedTranscript t).drop
      (min st.lastProcessedWordCount (normalizedTranscript t).length) = [])
    (hw : ∀ w ∈ lastN 5 (normalizedTranscript t), ∀ s ∈ scriptWords.map normalizeWord,
      m w s = false) :
    (processCore m lines scriptWords st t f now).targetWordCount = st.targetWordCount := by
  unfold processCore
  split
  · rfl
  · dsimp only
    rw [hnw]
    rw [if_neg (show ¬(([] : List String).length ≠ 0) by simp)]
    split
    · rfl
    · rw [runPhases_id m lines (scriptWords.map normalizeWord) _ st.targetWordCount _ hw]
      exact Nat.min_eq_left (Nat.le_add_right _ _)

/-! ### Congruence: the engine only queries the judge on processed-word /
script-word pairs, so judges that agree there give identical runs -/

theorem find?_congr' {α : Type} {p q : α → Bool} :
    ∀ l : List α, (∀ a ∈ l, p a = q a) → l.find? p = l.find? q := by
  intro l
  induction l with
  | nil => intro _; rfl
  | cons a l ih =>
    intro h
    simp only [List.find?]
    rw [h a (List.mem_cons_self _ _)]
    split
    · rfl
    · exact ih (fun b hb => h b (List.mem_cons_of_mem _ hb))

theorem scanGaps_congr (m₁ m₂ : String → String → Bool) (w : String) (script : List String)
    (h : ∀ s ∈ script, m₁ w s = m₂ w s) :
    ∀ n base, scanGaps m₁ w script base n = scanGaps m₂ w script base n := by
  intro n
  induction n with
  | zero => intro base; rfl
  | succ k ih =>
    intro base
    unfold scanGaps
    split
    · rw [h _ (List.get_mem _ _ _)]
      split
      · rfl
      · exact ih _
    · rfl

theorem forwardScan_congr (m₁ m₂ : String → String → Bool) (w : String)
    (script : List String) (sp window : Nat) (h : ∀ s ∈ script, m₁ w s = m₂ w s) :
    forwardScan m₁ w script sp window = forwardScan m₂ w script sp window := by
  unfold forwardScan
  rw [scanGaps_congr m₁ m₂ w script h window sp]

theorem pausePass_congr (m₁ m₂ : String → String → Bool) (script : List String) (a b : Nat) :
    ∀ (ws : List String) (sp : Nat), (∀ w ∈ ws, ∀ s ∈ script, m₁ w s = m₂ w s) →
      pausePass m₁ script a b ws sp = pausePass m₂ script a b ws sp := by
  intro ws
  induction ws with
  | nil => intro sp _; rfl
  | cons w rest ih =>
    intro sp h
    unfold pausePass
    have harg : (if a ≤ w.length then forwardScan m₁ w script sp b else sp) =
        (if a ≤ w.length then forwardScan m₂ w script sp b else sp) := by
      split
      · exact forwardScan_congr m₁ m₂ w script sp b (h w (List.mem_cons_self _ _))
      · rfl
    rw [harg]
    exact ih _ (fun w' hw' => h w' (List.mem_cons_of_mem _ hw'))

theorem regularPass_congr (m₁ m₂ : String → String → Bool) (script : List String)
    (a b c d : Nat) :
    ∀ (ws : List String) (sp : Nat), (∀ w ∈ ws, ∀ s ∈ script, m₁ w s = m₂ w s) →
      regularPass m₁ script a b c d ws sp = regularPass m₂ script a b c d ws sp := by
  intro ws
  induction ws with
  | nil => intro sp _; rfl
  | cons w rest ih =>
    intro sp h
    unfold regularPass
    dsimp only
    have h1 : (if a ≤ w.length then forwardScan m₁ w script sp b else sp) =
        (if a ≤ w.length then forwardScan m₂ w script sp b else sp) := by
      split
      · exact forwardScan_congr m₁ m₂ w script sp b (h w (List.mem_cons_self _ _))
      · rfl
    rw [h1]
    have h2 : ∀ x : Nat, (if c ≤ w.length then forwardScan m₁ w script x d else x) =
        (if c ≤ w.length then forwardScan m₂ w script x d else x) := by
      intro x
      split
      · exact forwardScan_congr m₁ m₂ w script x d (h w (List.mem_cons_self _ _))
      · rfl
    rw [h2]
    exact ih _ (fun w' hw' => h w' (List.mem_cons_of_mem _ hw'))

theorem consecAux_congr (m₁ m₂ : String → String → Bool) (script : List String) (g : Nat) :
    ∀ (ws : List String) (i cnt last : Nat), (∀ w ∈ ws, ∀ s ∈ script, m₁ w s = m₂ w s) →
      consecAux m₁ script g ws i cnt last = consecAux m₂ script g ws i cnt last := by
  intro ws
  induction ws with
  | nil => intro _ _ _ _; rfl
  | cons w rest ih =>
    intro i cnt last h
    unfold consecAux
    split
    · split
      · exact ih i cnt last (fun w' hw' => h w' (List.mem_cons_of_mem _ hw'))
      · rw [scanGaps_congr m₁ m₂ w script (h w (List.mem_cons_self _ _)) (g + 1) i]
        cases hg : scanGaps m₂ w script i (g + 1) with
        | none => rfl
        | some p => exact ih (p + 1) (cnt + 1) p (fun w' hw' => h w' (List.mem_cons_of_mem _ hw'))
    · rfl

theorem findConsecutiveMatches_congr (m₁ m₂ : String → String → Bool)
    (wtp script : List String) (pos : Nat)
    (h : ∀ w ∈ wtp, ∀ s ∈ script, m₁ w s = m₂ w s) :
    findConsecutiveMatches m₁ wtp script 0 pos 2 = findConsecutiveMatches m₂ wtp script 0 pos 2 := by
  unfold findConsecutiveMatches
  exact consecAux_congr m₁ m₂ script 2 (wtp.drop 0) pos 0 pos
    (fun w hw' s hs => h w (List.drop_subset _ _ hw') s hs)

theorem bestForwardAux_congr (m₁ m₂ : String → String → Bool) (wtp script : List String)
    (mc : Nat) (h : ∀ w ∈ wtp, ∀ s ∈ script, m₁ w s = m₂ w s) :
    ∀ (ps : List Nat) (best bpos : Nat),
      bestForwardAux m₁ wtp script mc ps best bpos = bestForwardAux m₂ wtp script mc ps best bpos := by
  intro ps
  induction ps with
  | nil => intro _ _; rfl
  | cons pos rest ih =>
    intro best bpos
    unfold bestForwardAux
    dsimp only
    rw [findConsecutiveMatches_congr m₁ m₂ wtp script pos h]
    split
    · exact ih _ _
    · exact ih _ _

theorem forwardConsecutive_congr (m₁ m₂ : String → String → Bool) (wtp script : List String)
    (mc la sp : Nat) (h : ∀ w ∈ wtp, ∀ s ∈ script, m₁ w s = m₂ w s) :
    forwardConsecutive m₁ wtp script mc la sp = forwardConsecutive m₂ wtp script mc la sp := by
  unfold forwardConsecutive
  dsimp only
  rw [bestForwardAux_congr m₁ m₂ wtp script mc h _ 0 sp]

theorem matchAt_congr (m₁ m₂ : String → String → Bool) (script : List String) (w : String)
    (h : ∀ s ∈ script, m₁ w s = m₂ w s) :
    ∀ j, matchAt m₁ script w j = matchAt m₂ script w j := by
  intro j
  unfold matchAt
  split
  · exact h _ (List.get_mem _ _ _)
  · rfl

theorem backwardScanWord_congr (m₁ m₂ : String → String → Bool) (w : String)
    (script : List String) (current searchStart : Nat)
    (h : ∀ s ∈ script, m₁ w s = m₂ w s) :
    backwardScanWord m₁ w script current searchStart =
    backwardScanWord m₂ w script current searchStart := by
  unfold backwardScanWord
  exact find?_congr' _ (fun j _ => matchAt_congr m₁ m₂ script w h j)

theorem backwardSinglePass_congr (m₁ m₂ : String → String → Bool) (script : List String)
    (current searchStart : Nat) :
    ∀ (ws : List String) (sp : Nat), (∀ w ∈ ws, ∀ s ∈ script, m₁ w s = m₂ w s) →
      backwardSinglePass m₁ script current searchStart ws sp =
      backwardSinglePass m₂ script current searchStart ws sp := by
  intro ws
  induction ws with
  | nil => intro _ _; rfl
  | cons w rest ih =>
    intro sp h
    unfold backwardSinglePass
    rw [backwardScanWord_congr m₁ m₂ w script current searchStart (h w (List.mem_cons_self _ _))]
    exact ih _ (fun w' hw' => h w' (List.mem_cons_of_mem _ hw'))

theorem bestBackwardAux_congr (m₁ m₂ : String → String → Bool) (wtp script : List String)
    (h : ∀ w ∈ wtp, ∀ s ∈ script, m₁ w s = m₂ w s) :
    ∀ (ps : List Nat) (best : Nat) (bpos : Option Nat),
      bestBackwardAux m₁ wtp script ps best bpos = bestBackwardAux m₂ wtp script ps best bpos := by
  intro ps
  induction ps with
  | nil => intro _ _; rfl
  | cons pos rest ih =>
    intro best bpos
    unfold bestBackwardAux
    dsimp only
    rw [findConsecutiveMatches_congr m₁ m₂ wtp script pos h]
    split
    · exact ih _ _
    · exact ih _ _

theorem backwardConsecutive_congr (m₁ m₂ : String → String → Bool) (wtp script : List String)
    (current searchStart sp : Nat) (h : ∀ w ∈ wtp, ∀ s ∈ script, m₁ w s = m₂ w s) :
    backwardConsecutive m₁ wtp script current searchStart sp =
    backwardConsecutive m₂ wtp script current searchStart sp := by
  unfold backwardConsecutive
  rw [bestBackwardAux_congr m₁ m₂ wtp script h _ 0 none]

theorem backwardPhase_congr (m₁ m₂ : String → String → Bool) (wtp script : List String)
    (current searchStart : Nat) (h : ∀ w ∈ wtp, ∀ s ∈ script, m₁ w s = m₂ w s) :
    backwardPhase m₁ wtp script current searchStart =
    backwardPhase m₂ wtp script current searchStart := by
  unfold backwardPhase
  dsimp only
  rw [backwardSinglePass_congr m₁ m₂ script current searchStart wtp current h]
  split
  · exact backwardConsecutive_congr m₁ m₂ wtp script current searchStart _ h
  · rfl

theorem runPhases_congr (m₁ m₂ : String → String → Bool) (lines : Bool)
    (normScript wtp : List String) (current : Nat) (isPaused : Bool)
    (h : ∀ w ∈ wtp, ∀ s ∈ normScript, m₁ w s = m₂ w s) :
    runPhases m₁ lines normScript wtp current isPaused =
    runPhases m₂ lines normScript wtp current isPaused := by
  unfold runPhases
  dsimp only
  have h1 : (if lines = true then current
      else backwardPhase m₁ wtp normScript current (current - if lines = true then 30 else 100)) =
      (if lines = true then current
      else backwardPhase m₂ wtp normScript current (current - if lines = true then 30 else 100)) := by
    split
    · rfl
    · exact backwardPhase_congr m₁ m₂ wtp normScript current _ h
  rw [h1]
  have h2 : ∀ x : Nat, (if isPaused = true then
      pausePass m₁ normScript (if lines = true then 4 else 2) (if lines = true then 5 else 10)
        wtp x
      else x) = (if isPaused = true then
      pausePass m₂ normScript (if lines = true then 4 else 2) (if lines = true then 5 else 10)
        wtp x
      else x) := by
    intro x
    split
    · exact pausePass_congr m₁ m₂ normScript _ _ wtp x h
    · rfl
  rw [h2]
  rw [regularPass_congr m₁ m₂ normScript _ _ _ _ wtp _ h]
  split
  · exact forwardConsecutive_congr m₁ m₂ wtp normScript _ _ _ h
  · rfl

theorem processCore_congr (m₁ m₂ : String → String → Bool) (lines : Bool)
    (scriptWords : List String) (st : EngineState) (t : String) (f : Bool) (now : Nat)
    (h : ∀ w ∈ normalizedTranscript t, ∀ s ∈ scriptWords.map normalizeWord, m₁ w s = m₂ w s) :
    processCore m₁ lines scriptWords st t f now = processCore m₂ lines scriptWords st t f now := by
  unfold processCore
  split
  · rfl
  · dsimp only
    have hwtp : ∀ w ∈ (if ((normalizedTranscript t).drop
          (min st.lastProcessedWordCount (normalizedTranscript t).length)).length ≠ 0 then
          (normalizedTranscript t).drop
            (min st.lastProcessedWordCount (normalizedTranscript t).length)
        else lastN 5 (normalizedTranscript t)), w ∈ normalizedTranscript t := by
      intro w hw'
      split at hw'
      · exact List.drop_subset _ _ hw'
      · exact List.drop_subset _ _ hw'
    rw [runPhases_congr m₁ m₂ lines (scriptWords.map normalizeWord) _ st.targetWordCount _
      (fun w hw' s hs => h w (hwtp w hw') s hs)]

theorem consecAux_oob (m : String → String → Bool) (script : List String) (g : Nat)
    (ws : List String) (i cnt last : Nat) (hi : ¬i < script.length) :
    consecAux m script g ws i cnt last = (cnt, last) := by
  cases ws with
  | nil => rfl
  | cons w rest =>
    unfold consecAux
    rw [if_neg hi]

theorem ite_consumed_eq {c : Prop} [Decidable c] {a b : EngineState} {n : Nat}
    (ha : a.lastProcessedWordCount = n) (hb : b.lastProcessedWordCount = n) :
    (if c then a else b).lastProcessedWordCount = n := by
  split
  · exact ha
  · exact hb

/-! ### The claims -/

/-- Claim C1: for every transcript event processed on a non-empty script, the
cursor after the event exceeds the cursor before it by at most
`VOICE_MAX_ADVANCE_PER_RESULT` (30) when the event is final and by at most 15
when it is interim, regardless of how many matches the event produces
(the source caps via `Math.min(scriptPos, current + maxAdvance)`). -/
theorem advance_cap (dm : String → String × String) (cfg : EngineConfig)
    (scriptWords : List String) (st : EngineState) (t : String) (f : Bool) (now : Nat)
    (_hs : scriptWords ≠ []) :
    (processTranscript dm cfg scriptWords st t f now).targetWordCount ≤
      st.targetWordCount + (if f then VOICE_MAX_ADVANCE_PER_RESULT else 15) := by
  unfold processTranscript processCore
  split
  · exact Nat.le_add_right _ _
  · dsimp only
    apply ite_target_le
    · exact Nat.le_add_right _ _
    · exact Nat.min_le_right _ _

/-- Witness for the advance cap at a concrete final event on a non-empty
script. -/
theorem advance_cap_witness :
    (processTranscript dmId ⟨FadeMode.words, 50⟩ ["hi"] ⟨0, 0, 0⟩ ("hi") true 5).targetWordCount ≤
      (⟨0, 0, 0⟩ : EngineState).targetWordCount +
        (if true then VOICE_MAX_ADVANCE_PER_RESULT else 15) :=
  advance_cap dmId ⟨FadeMode.words, 50⟩ ["hi"] ⟨0, 0, 0⟩ ("hi") true 5 (by decide)

/-- Claim C2 is false as stated: on the script `hello hello hello hello`,
processing the final hypothesis `hello` once consumes it fully
(`lastProcessedWordCount = 1` equals its word count) and puts the cursor
at 2; processing the very same hypothesis again immediately afterwards
re-processes the last five words (the fallback at Teleprompter.tsx
lines 724-736) and moves the cursor to 4, not 2. -/
theorem noop_rematch_cex :
    processTranscript dmId ⟨FadeMode.words, 50⟩ ["hello", "hello", "hello", "hello"]
      ⟨0, 0, 0⟩ ("hello") true 500 = ⟨2, 1, 500⟩ ∧
    (processTranscript dmId ⟨FadeMode.words, 50⟩ ["hello", "hello", "hello", "hello"]
      ⟨2, 1, 500⟩ ("hello") true 500).targetWordCount = 4 := by decide

/-- Claim C2 (amended): feeding the same already-fully-consumed hypothesis
text twice in a row produces no further cursor movement, provided none of
the hypothesis's last five normalized words matches (exactly or
phonetically) any normalized script word; in general the engine falls back
to re-processing those last five words, and a re-match can move the cursor
further. -/
theorem noop_input_amended (dm : String → String × String) (cfg : EngineConfig)
    (scriptWords : List String) (st : EngineState) (t : String) (f : Bool) (now : Nat)
    (hcons : st.lastProcessedWordCount = (normalizedTranscript t).length)
    (hnm : ∀ w ∈ lastN 5 (normalizedTranscript t), ∀ s ∈ scriptWords.map normalizeWord,
      wordsMatch dm w s = false) :
    (processTranscript dm cfg scriptWords st t f now).targetWordCount = st.targetWordCount := by
  unfold processTranscript
  apply processCore_cursor_id
  · rw [hcons, Nat.min_self]
    exact List.drop_length _
  · exact hnm

/-- Witness for the amended C2: a fully-consumed off-script hypothesis
leaves the cursor alone. -/
theorem noop_input_amended_witness :
    (processTranscript dmId ⟨FadeMode.words, 50⟩ ["alpha"] ⟨0, 2, 500⟩
      ("zz qq") true 600).targetWordCount = (⟨0, 2, 500⟩ : EngineState).targetWordCount :=
  noop_input_amended dmId ⟨FadeMode.words, 50⟩ ["alpha"] ⟨0, 2, 500⟩ ("zz qq") true 600
    (by decide) (by decide)

/-- Claim C3 is false as stated: with the configured lookahead set to 4
(well below the distance of the only matching script word, which sits at
index 60), processing still matches it — the interim event moves the
cursor to 15 (61 capped at 0 + 15) instead of leaving it at 0 as a
4-word (or even the default 50-word) forward window would; and the whole
engine output is identical under lookahead 4 and the default 50, because
`processTranscript` never reads `voiceLookahead`: its wide window is the
hardwired constant 100 (30 in lines mode). -/
theorem lookahead_config_cex :
    (processTranscript dmId ⟨FadeMode.words, 4⟩ (List.replicate 60 ("z") ++ ["hello"])
      ⟨0, 0, 0⟩ ("hello") false 500).targetWordCount = 15 ∧
    processTranscript dmId ⟨FadeMode.words, 4⟩ (List.replicate 60 ("z") ++ ["hello"])
      ⟨0, 0, 0⟩ ("hello") false 500 =
    processTranscript dmId ⟨FadeMode.words, DEFAULT_VOICE_LOOKAHEAD_WORDS⟩
      (List.replicate 60 ("z") ++ ["hello"]) ⟨0, 0, 0⟩ ("hello") false 500 := by decide

/-- Claim C3 (amended): the forward search windows of the matching phases
are hardwired constants (30 in lines mode, 100 otherwise); the session's
configured `voiceLookahead` value (default `DEFAULT_VOICE_LOOKAHEAD_WORDS`
= 50) is never read by `processTranscript`, so changing it does not change
the engine's behavior at all. -/
theorem lookahead_config_unused (dm : String → String × String) (fm : FadeMode)
    (l1 l2 : Nat) (scriptWords : List String) (st : EngineState) (t : String)
    (f : Bool) (now : Nat) :
    processTranscript dm ⟨fm, l1⟩ scriptWords st t f now =
    processTranscript dm ⟨fm, l2⟩ scriptWords st t f now := rfl

/-- Claim C4 is false as stated: in lines mode (the conservative profile)
the consecutive-run scan is still invoked with `maxGap = 2` — the
function's default parameter value 3 is passed at no call site. On the
script `wxyz pp qq rr abcd efgh` and spoken words `wxyz abcd efgh`, a
gap-3 run of length 3 exists (third conjunct), so a gap-3 tolerance would
jump the cursor; the engine instead leaves the cursor at 0 because its
gap-2 run breaks after one match (second conjunct). -/
theorem consecutive_gap_cex :
    (processTranscript dmId ⟨FadeMode.lines, 50⟩ ["wxyz", "pp", "qq", "rr", "abcd", "efgh"]
      ⟨0, 0, 0⟩ ("wxyz abcd efgh") false 500).targetWordCount = 0 ∧
    findConsecutiveMatches (wordsMatch dmId) ["wxyz", "abcd", "efgh"]
      ["wxyz", "pp", "qq", "rr", "abcd", "efgh"] 0 0 2 = (1, 0) ∧
    findConsecutiveMatches (wordsMatch dmId) ["wxyz", "abcd", "efgh"]
      ["wxyz", "pp", "qq", "rr", "abcd", "efgh"] 0 0 3 = (3, 5) := by decide

/-- Claim C4 (amended): the consecutive-run scan as invoked by the engine
tolerates a positional gap of at most 2 reference positions per spoken
word in both profiles (every call site passes `maxGap = 2`; the declared
default of 3 is never used), and it skips spoken words of normalized
length ≤ 1 without breaking the run: a skipped word changes nothing, while
a word of length ≥ 2 whose three candidate positions (gaps 0, 1, 2) all
fail to match terminates the run with the accumulated result. -/
theorem consecutive_gap_skip_amended (m : String → String → Bool) (w : String)
    (rest script : List String) (i cnt last : Nat) :
    (w.length ≤ 1 → consecAux m script 2 (w :: rest) i cnt last =
      consecAux m script 2 rest i cnt last) ∧
    (2 ≤ w.length → (∀ g, g ≤ 2 → matchAt m script w (i + g) = false) →
      consecAux m script 2 (w :: rest) i cnt last = (cnt, last)) := by
  constructor
  · intro hw
    by_cases hi : i < script.length
    · conv_lhs => unfold consecAux
      rw [if_pos hi, if_pos hw]
    · conv_lhs => unfold consecAux
      rw [if_neg hi]
      exact (consecAux_oob m script 2 rest i cnt last hi).symm
  · intro hw hg
    by_cases hi : i < script.length
    · conv_lhs => unfold consecAux
      rw [if_pos hi, if_neg (by omega)]
      rw [scanGaps_none_of_window m w script 3 i (fun g hg' => hg g (by omega))]
    · exact consecAux_oob m script 2 (w :: rest) i cnt last hi

/-- Witness for the amended C4: a length-1 word is skipped unchanged, and a
word whose nearest match sits 3 positions away (outside the gap-2 window)
ends the run with no matches. -/
theorem consecutive_gap_skip_amended_witness :
    (consecAux (wordsMatch dmId) ["abcd"] 2 ["z", "abcd"] 0 0 0 =
      consecAux (wordsMatch dmId) ["abcd"] 2 ["abcd"] 0 0 0) ∧
    consecAux (wordsMatch dmId) ["pp", "qq", "rr", "abcd"] 2 ["abcd"] 0 0 0 = (0, 0) :=
  ⟨(consecutive_gap_skip_amended (wordsMatch dmId) ("z") ["abcd"] ["abcd"] 0 0 0).1
      (by decide),
   (consecutive_gap_skip_amended (wordsMatch dmId) ("abcd") [] ["pp", "qq", "rr", "abcd"]
      0 0 0).2 (by decide) (by decide)⟩

/-- Claim C5: the equivalence judge returns true exactly when the two
(normalized) words are equal, or both have length ≥ 4 and some pairing of
their primary/secondary phonetic codes is equal with both codes of the
pairing non-empty; in particular words shorter than 4 characters never
match phonetically. -/
theorem equivalence_judge_spec (dm : String → String × String) (a b : String) :
    wordsMatch dm a b = true ↔ judgeSpecC5 dm a b := by
  unfold wordsMatch judgeSpecC5 wordsMatchPhonetically codePairMatch
  dsimp only
  by_cases hab : a = b
  · subst hab
    simp
  · rw [beq_eq_false_iff_ne.mpr hab, if_neg Bool.false_ne_true]
    by_cases h4 : 4 ≤ a.length ∧ 4 ≤ b.length
    · rw [if_pos h4]
      have hlen : ¬(a.length < 4 ∨ b.length < 4) := by omega
      rw [if_neg hlen]
      simp only [Bool.or_eq_true, Bool.and_eq_true, bne_iff_ne, beq_iff_eq, and_assoc, or_assoc]
      constructor
      · intro hcp
        exact Or.inr ⟨h4.1, h4.2, hcp⟩
      · rintro (heq | ⟨_, _, hcp⟩)
        · exact absurd heq hab
        · exact hcp
    · rw [if_neg h4]
      constructor
      · intro hff
        exact absurd hff Bool.false_ne_true
      · rintro (heq | ⟨ha4, hb4, _⟩)
        · exact absurd heq hab
        · exact absurd ⟨ha4, hb4⟩ h4

theorem codePairMatch_comm (c1 c2 : String × String) :
    codePairMatch c1 c2 = codePairMatch c2 c1 := by
  unfold codePairMatch
  rw [Bool.eq_iff_iff]
  simp only [Bool.or_eq_true, Bool.and_eq_true, bne_iff_ne, beq_iff_eq, and_assoc, or_assoc]
  constructor
  · rintro (⟨h1, h2, h3⟩ | ⟨h1, h2, h3⟩ | ⟨h1, h2, h3⟩ | ⟨h1, h2, h3⟩)
    · exact Or.inl ⟨h2, h1, h3.symm⟩
    · exact Or.inr (Or.inr (Or.inl ⟨h2, h1, h3.symm⟩))
    · exact Or.inr (Or.inl ⟨h2, h1, h3.symm⟩)
    · exact Or.inr (Or.inr (Or.inr ⟨h2, h1, h3.symm⟩))
  · rintro (⟨h1, h2, h3⟩ | ⟨h1, h2, h3⟩ | ⟨h1, h2, h3⟩ | ⟨h1, h2, h3⟩)
    · exact Or.inl ⟨h2, h1, h3.symm⟩
    · exact Or.inr (Or.inr (Or.inl ⟨h2, h1, h3.symm⟩))
    · exact Or.inr (Or.inl ⟨h2, h1, h3.symm⟩)
    · exact Or.inr (Or.inr (Or.inr ⟨h2, h1, h3.symm⟩))

/-- Claim C8: phonetic equivalence is symmetric — the four code-pair
comparisons form a symmetric set, and the length guard is symmetric too. -/
theorem phonetic_symm (dm : String → String × String) (a b : String) :
    wordsMatchPhonetically dm a b = wordsMatchPhonetically dm b a := by
  unfold wordsMatchPhonetically
  by_cases h : a.length < 4 ∨ b.length < 4
  · rw [if_pos h, if_pos (Or.symm h)]
  · rw [if_neg h, if_neg (fun hc => h (Or.symm hc))]
    exact codePairMatch_comm _ _

/-- Claim C9: for a non-empty script and a transcript with at least one
token, processing sets the consumed-word counter to the number of
non-empty normalized words of the transcript (even when the cursor does
not move); for a token-less transcript or an empty script, the counter is
left unchanged. -/
theorem consumed_counter_update (dm : String → String × String) (cfg : EngineConfig)
    (scriptWords : List String) (st : EngineState) (t : String) (f : Bool) (now : Nat) :
    (scriptWords ≠ [] → tokenize t ≠ [] →
      (processTranscript dm cfg scriptWords st t f now).lastProcessedWordCount =
        (normalizedTranscript t).length) ∧
    ((scriptWords = [] ∨ tokenize t = []) →
      (processTranscript dm cfg scriptWords st t f now).lastProcessedWordCount =
        st.lastProcessedWordCount) := by
  constructor
  · intro hs ht
    unfold processTranscript processCore
    have hcond : ¬(scriptWords.length = 0 ∨ (tokenize t).length = 0) := by
      rintro (h | h)
      · exact hs (List.length_eq_zero.mp h)
      · exact ht (List.length_eq_zero.mp h)
    rw [if_neg hcond]
    dsimp only
    apply ite_consumed_eq
    · rfl
    · rfl
  · intro h
    unfold processTranscript processCore
    rw [if_pos ?hc]
    case hc =>
      rcases h with h | h
      · exact Or.inl (List.length_eq_zero.mpr h)
      · exact Or.inr (List.length_eq_zero.mpr h)

/-- Witness for C9: a two-token transcript sets the counter to 2; a
whitespace-only transcript leaves it at 3. -/
theorem consumed_counter_update_witness :
    (processTranscript dmId ⟨FadeMode.words, 50⟩ ["hi"] ⟨0, 3, 0⟩
      ("yo ho") true 5).lastProcessedWordCount = (normalizedTranscript ("yo ho")).length ∧
    (processTranscript dmId ⟨FadeMode.words, 50⟩ ["hi"] ⟨0, 3, 0⟩
      ("   ") true 5).lastProcessedWordCount = (⟨0, 3, 0⟩ : EngineState).lastProcessedWordCount :=
  ⟨(consumed_counter_update dmId ⟨FadeMode.words, 50⟩ ["hi"] ⟨0, 3, 0⟩ ("yo ho") true 5).1
      (by decide) (by decide),
   (consumed_counter_update dmId ⟨FadeMode.words, 50⟩ ["hi"] ⟨0, 3, 0⟩ ("   ") true 5).2
      (Or.inr (by decide))⟩

/-- Claim C10: the backward phase never increases the tentative cursor —
a position adopted by the backward single-word pass is at most
`current - 4` (the scan starts at `current - 5` and adopts `pos + 1`), and
the whole backward phase (whose consecutive-run jump is committed only
when strictly below `current`) returns a position ≤ `current`. -/
theorem backward_never_advances (m : String → String → Bool) (wtp script : List String)
    (current searchStart : Nat) :
    (backwardSinglePass m script current searchStart wtp current = current ∨
     backwardSinglePass m script current searchStart wtp current + 4 ≤ current) ∧
    backwardPhase m wtp script current searchStart ≤ current :=
  ⟨backwardSinglePass_bound m script current searchStart wtp (Or.inl rfl),
   backwardPhase_le m wtp script current searchStart⟩

/-- Claim C7: for every script of length N, every initial state whose cursor
is in range, and every sequence of transcript events, manual jumps to
existing word indices, and resets, the cursor remains in `[0, N]` after
each operation (each prefix of the sequence; the lower bound is the type). -/
theorem cursor_in_range (dm : String → String × String) (cfg : EngineConfig)
    (scriptWords : List String) (st : EngineState) (ops : List TeleOp)
    (hst : st.targetWordCount ≤ scriptWords.length)
    (hops : ∀ op ∈ ops, TeleOp.valid scriptWords.length op = true) :
    ∀ n, ((ops.take n).foldl (applyOp dm cfg scriptWords) st).targetWordCount ≤
      scriptWords.length := by
  induction ops generalizing st with
  | nil =>
    intro n
    simp only [List.take_nil, List.foldl_nil]
    exact hst
  | cons op rest ih =>
    intro n
    cases n with
    | zero =>
      simp only [List.take_zero, List.foldl_nil]
      exact hst
    | succ k =>
      rw [List.take_succ_cons, List.foldl_cons]
      apply ih
      · cases op with
        | event t f now => exact processTranscript_cursor_le dm cfg scriptWords st t f now hst
        | jump i =>
          have hv := hops (TeleOp.jump i) (List.mem_cons_self _ _)
          unfold TeleOp.valid at hv
          exact Nat.le_of_lt (of_decide_eq_true hv)
        | reset => exact Nat.zero_le _
      · exact fun op' hop' => hops op' (List.mem_cons_of_mem _ hop')

/-- Witness for C7: a concrete event, jump, reset sequence on a two-word
script keeps the cursor within bounds. -/
theorem cursor_in_range_witness :
    ((([TeleOp.event ("yo") true 5, TeleOp.jump 1, TeleOp.reset].take 3).foldl
      (applyOp dmId ⟨FadeMode.words, 50⟩ ["hi", "yo"]) ⟨0, 0, 0⟩)).targetWordCount ≤
      (["hi", "yo"] : List String).length :=
  cursor_in_range dmId ⟨FadeMode.words, 50⟩ ["hi", "yo"] ⟨0, 0, 0⟩
    [TeleOp.event ("yo") true 5, TeleOp.jump 1, TeleOp.reset] (by decide) (by decide) 3

/-- Claim C6: on the 9-word reference of the spec's walk-through, processed
under the default (non-lines) profile with any phonetic encoder that
produces no false positive among the script's own words: the interim event
for the first two words puts the cursor at 2; the final event for the first
four words puts the cursor at 4 with `consumedWordCount = 4`; and an
interim event containing only the fifth word, arriving after a 1200 ms gap
(pause detected), advances the cursor to 5 through the pause-relaxed
single-word forward scan. -/
theorem concrete_walkthrough_default_profile (dm : String → String × String)
    (H : ∀ w1 ∈ script9, ∀ w2 ∈ script9, w1 ≠ w2 →
      wordsMatchPhonetically dm w1 w2 = false) :
    (processTranscript dm ⟨FadeMode.words, 50⟩ script9 ⟨0, 0, 0⟩
      ("the quick") false 1000).targetWordCount = 2 ∧
    processTranscript dm ⟨FadeMode.words, 50⟩ script9
      (processTranscript dm ⟨FadeMode.words, 50⟩ script9 ⟨0, 0, 0⟩ ("the quick") false 1000)
      ("the quick brown fox") true 1100 = ⟨4, 4, 1100⟩ ∧
    (processTranscript dm ⟨FadeMode.words, 50⟩ script9
      (processTranscript dm ⟨FadeMode.words, 50⟩ script9
        (processTranscript dm ⟨FadeMode.words, 50⟩ script9 ⟨0, 0, 0⟩ ("the quick") false 1000)
        ("the quick brown fox") true 1100)
      ("jumps") false 2300).targetWordCount = 5 := by
  have hmagree : ∀ t : String, (∀ w ∈ normalizedTranscript t, w ∈ script9) →
      ∀ (st : EngineState) (f : Bool) (now : Nat),
        processTranscript dm ⟨FadeMode.words, 50⟩ script9 st t f now =
        processCore beqJudge false script9 st t f now := by
    intro t hsub st f now
    unfold processTranscript
    have hfm : decide ((⟨FadeMode.words, 50⟩ : EngineConfig).fadeMode = FadeMode.lines) =
        false := by decide
    rw [hfm]
    apply processCore_congr
    intro w hw s hs
    have hw9 : w ∈ script9 := hsub w hw
    have hs9 : s ∈ script9 := by
      have hmap : script9.map normalizeWord = script9 := by decide
      rw [hmap] at hs
      exact hs
    unfold wordsMatch beqJudge
    by_cases hws : w = s
    · subst hws
      simp
    · rw [beq_eq_false_iff_ne.mpr hws, if_neg Bool.false_ne_true]
      split
      · rename_i h4
        exact H w hw9 s hs9 hws
      · rfl
  have e1 : processTranscript dm ⟨FadeMode.words, 50⟩ script9 ⟨0, 0, 0⟩
      ("the quick") false 1000 = ⟨2, 2, 1000⟩ := by
    rw [hmagree _ (by decide) _ _ _]
    decide
  have e2 : processTranscript dm ⟨FadeMode.words, 50⟩ script9 ⟨2, 2, 1000⟩
      ("the quick brown fox") true 1100 = ⟨4, 4, 1100⟩ := by
    rw [hmagree _ (by decide) _ _ _]
    decide
  have e3 : processTranscript dm ⟨FadeMode.words, 50⟩ script9 ⟨4, 4, 1100⟩
      ("jumps") false 2300 = ⟨5, 1, 2300⟩ := by
    rw [hmagree _ (by decide) _ _ _]
    decide
  rw [e1, e2, e3]
  exact ⟨rfl, rfl, rfl⟩

/-- Witness for C6 at a concrete phonetic encoder with no false positives
among the nine script words. -/
theorem concrete_walkthrough_default_profile_witness :
    (processTranscript dmId ⟨FadeMode.words, 50⟩ script9 ⟨0, 0, 0⟩
      ("the quick") false 1000).targetWordCount = 2 ∧
    processTranscript dmId ⟨FadeMode.words, 50⟩ script9
      (processTranscript dmId ⟨FadeMode.words, 50⟩ script9 ⟨0, 0, 0⟩ ("the quick") false 1000)
      ("the quick brown fox") true 1100 = ⟨4, 4, 1100⟩ ∧
    (processTranscript dmId ⟨FadeMode.words, 50⟩ script9
      (processTranscript dmId ⟨FadeMode.words, 50⟩ script9
        (processTranscript dmId ⟨FadeMode.words, 50⟩ script9 ⟨0, 0, 0⟩ ("the quick") false 1000)
        ("the quick brown fox") true 1100)
      ("jumps") false 2300).targetWordCount = 5 :=
  concrete_walkthrough_default_profile dmId (by decide)

end Teleprompter
